import Mathlib

/-!
Verification of the time-indexed feature layer (Timeline) and its slider
control (TimelineSliderControl). Times are JavaScript numbers: the code keeps
integer millisecond timestamps but also uses Infinity and -Infinity as
sentinels, so times are modelled by an integer extended with both infinities.
Features are identified by reference identity, modelled as natural-number ids.
-/

/-- JavaScript numeric time values: integers plus the two infinite sentinels. -/
inductive JSNum where
  | num (n : Int)
  | posInf
  | negInf
deriving DecidableEq, Repr

/-- JavaScript comparison a < b on time values. -/
def jsLt : JSNum → JSNum → Bool
  | .num a, .num b => a < b
  | .num _, .posInf => true
  | .negInf, .num _ => true
  | .negInf, .posInf => true
  | _, _ => false

/-- JavaScript comparison a <= b on time values. -/
def jsLe (a b : JSNum) : Bool := !(jsLt b a)

/-- One record of the interval store: a feature id with its time interval. -/
structure Entry where
  start : Int
  «end» : Int
  feature : Nat
deriving DecidableEq, Repr

/-- A displayed map layer, carrying the feature it was built from. -/
structure Layer where
  feature : Nat
deriving DecidableEq, Repr

/-- Modelled from the spec: the IntervalTree of the diesal dependency is not
under src, so the store is modelled as the list of inserted entries, and the
overlap query returns the feature of every entry whose closed interval
intersects the closed query interval (touching endpoints count as overlap). -/
def overlap (entries : List Entry) (qs qe : JSNum) : List Nat :=
  (entries.filter fun en => jsLe (.num en.start) qe && jsLe qs (.num en.«end»)).map
    fun en => en.feature

/-- The matching loop of updateDisplayedLayers: each displayed layer scans the
candidate feature list for the first element identical to its bound feature,
splicing it out when found so it is not re-added; a layer with no match is
dropped. Returns the layers kept displayed and the unmatched candidates. -/
def reconcile : List Layer → List Nat → List Layer × List Nat
  | [], feats => ([], feats)
  | l :: ls, feats =>
    if l.feature ∈ feats then
      let r := reconcile ls (feats.erase l.feature)
      (l :: r.1, r.2)
    else
      reconcile ls feats

/-- State of one L.Timeline layer. The changeCount field counts the fired
change notifications. -/
structure Timeline where
  id : Nat
  entries : List Entry
  times : List Int
  start : JSNum
  «end» : JSNum
  timeStart : JSNum
  timeEnd : JSNum
  drawOnSetTime : Bool
  layers : List Layer
  changeCount : Nat
deriving DecidableEq, Repr

/-- updateDisplayedLayers: query the overlap at the current selection, keep
each displayed layer that matches a candidate (consuming the candidate),
remove the unmatched layers, then add a layer for every leftover candidate. -/
def Timeline.updateDisplayedLayers (tl : Timeline) : Timeline :=
  let features := overlap tl.entries tl.timeStart tl.timeEnd
  let r := reconcile tl.layers features
  { tl with layers := r.1 ++ r.2.map fun f => { feature := f } }

/-- setStartTime with an already-numeric argument: set timeStart, redraw when
drawOnSetTime is on, then fire the change notification. -/
def Timeline.setStartTimeNum (tl : Timeline) (t : JSNum) : Timeline :=
  let tl1 := { tl with timeStart := t }
  let tl2 := if tl1.drawOnSetTime then tl1.updateDisplayedLayers else tl1
  { tl2 with changeCount := tl2.changeCount + 1 }

/-- setEndTime with an already-numeric argument. -/
def Timeline.setEndTimeNum (tl : Timeline) (t : JSNum) : Timeline :=
  let tl1 := { tl with timeEnd := t }
  let tl2 := if tl1.drawOnSetTime then tl1.updateDisplayedLayers else tl1
  { tl2 with changeCount := tl2.changeCount + 1 }

/-- The argument of setStartTime and setEndTime: a number or a date string. -/
inductive TimeInput where
  | num (n : Int)
  | str (s : String)

/-- The coercion the setters apply: numbers pass through, strings go through
the date parser (an external one-line conversion, taken as a parameter). -/
def TimeInput.toTime (parseDate : String → Int) : TimeInput → Int
  | .num n => n
  | .str s => parseDate s

/-- setStartTime as exposed: accepts a number or a date-like string. -/
def Timeline.setStartTime (tl : Timeline) (parseDate : String → Int)
    (t : TimeInput) : Timeline :=
  tl.setStartTimeNum (.num (t.toTime parseDate))

/-- setEndTime as exposed: accepts a number or a date-like string. -/
def Timeline.setEndTime (tl : Timeline) (parseDate : String → Int)
    (t : TimeInput) : Timeline :=
  tl.setEndTimeNum (.num (t.toTime parseDate))

/-- Options of the Timeline layer that the core reads. -/
structure TimelineOptions where
  drawOnSetTime : Bool
  start : Option Int
  «end» : Option Int

/-- JavaScript x || y for an optional numeric option: undefined and 0 are
falsy, so both select the fallback. -/
def jsOrOpt (o : Option Int) (fallback : JSNum) : JSNum :=
  match o with
  | none => fallback
  | some v => if v = 0 then fallback else .num v

/-- Working state of the feature loop in the _process method. -/
structure ProcessAcc where
  entries : List Entry
  times : List Int
  start : JSNum
  «end» : JSNum

/-- One iteration of the _process feature loop: skip the feature when the
interval extraction declines it, otherwise insert the entry, push both
endpoints onto the times list and widen the running min and max. -/
def processStep (getInterval : Nat → Option (Int × Int)) (acc : ProcessAcc)
    (f : Nat) : ProcessAcc :=
  match getInterval f with
  | none => acc
  | some (s, e) =>
    { entries := acc.entries ++ [{ start := s, «end» := e, feature := f }]
      times := acc.times ++ [s, e]
      start := if jsLt (.num s) acc.start then .num s else acc.start
      «end» := if jsLt acc.«end» (.num e) then .num e else acc.«end» }

/-- One step of the de-duplicating reduce in _process: append the element only
when it differs from the accumulated list's last element. -/
def dedupStep (acc : List Int) (x : Int) : List Int :=
  if acc.getLast? = some x then acc else acc ++ [x]

/-- The de-duplicating reduce of _process, seeded with the first time. -/
def jsDedup : List Int → List Int
  | [] => []
  | t :: rest => rest.foldl dedupStep [t]

/-- Numeric ascending sort of a times array (the source passes a numeric
comparator to Array.sort). -/
def sortTimes (l : List Int) : List Int := List.insertionSort (fun a b => a ≤ b) l

/-- Construction of a Timeline from a feature collection: the _process loop,
then the || fallbacks for start and end, the initial selection, and the sorted
de-duplicated times list (left untouched when no endpoint was collected). -/
def Timeline.process (getInterval : Nat → Option (Int × Int))
    (opts : TimelineOptions) (tid : Nat) (features : List Nat) : Timeline :=
  let acc := features.foldl (processStep getInterval)
    { entries := [], times := [], start := .posInf, «end» := .negInf }
  let s := jsOrOpt opts.start acc.start
  let e := jsOrOpt opts.«end» acc.«end»
  let ts := if acc.times = [] then acc.times else jsDedup (sortTimes acc.times)
  { id := tid, entries := acc.entries, times := ts, start := s, «end» := e,
    timeStart := s, timeEnd := e, drawOnSetTime := opts.drawOnSetTime,
    layers := [], changeCount := 0 }

example :
    overlap [⟨0, 10, 1⟩, ⟨5, 15, 2⟩] (.num 0) (.num 4) = [1] := by decide

example :
    overlap [⟨0, 10, 1⟩, ⟨5, 15, 2⟩] (.num 6) (.num 6) = [1, 2] := by decide

example :
    overlap [⟨0, 10, 1⟩, ⟨5, 15, 2⟩] (.num 16) (.num 20) = [] := by decide

example :
    (Timeline.process (fun f => some (f, f + 10)) ⟨true, none, none⟩ 0 [5, 0]).times =
      [0, 5, 10, 15] := by decide

/-- Options of the slider control that the core reads. -/
structure ControlOptions where
  showTicks : Bool
  waitToUpdateMap : Bool
  start : Option Int
  «end» : Option Int

/-- State of the TimelineSliderControl. The slider fields record what the
external slider widget was given: sliderRangeMin and sliderRangeMax hold the
last range bounds passed to updateOptions, and sliderSetLog every handle pair
passed to a set call (none standing for the null that leaves a handle). -/
structure SliderControl where
  opts : ControlOptions
  timelines : List Timeline
  start : JSNum
  «end» : JSNum
  timeStart : JSNum
  timeEnd : JSNum
  sliderRangeMin : JSNum
  sliderRangeMax : JSNum
  sliderSetLog : List (Option JSNum × Option JSNum)
  pips : List Int

/-- JavaScript x || 0 for an optional numeric option (0 stays 0). -/
def jsOr0 (o : Option Int) : JSNum := .num (o.getD 0)

/-- The control right after initialize and _createDOM: no timelines, bounds
from the options with fallback 0, slider created on the same range. The
timeStart and timeEnd fields are unwritten at this point (first written by
_sliderChanged before any use); 0 stands for that unwritten value. -/
def SliderControl.mk0 (opts : ControlOptions) : SliderControl :=
  { opts := opts, timelines := [], start := jsOr0 opts.start,
    «end» := jsOr0 opts.«end», timeStart := .num 0, timeEnd := .num 0,
    sliderRangeMin := jsOr0 opts.start, sliderRangeMax := jsOr0 opts.«end»,
    sliderSetLog := [], pips := [] }

/-- The _sliderChanged handler as reached from setTime (the event type is
always the string for change there, so the push to the timelines happens
regardless of waitToUpdateMap): store the selection and push it to every
registered timeline, all the start updates before all the end updates. -/
def SliderControl.sliderChanged (c : SliderControl) (ts te : JSNum) :
    SliderControl :=
  { c with
    timeStart := ts
    timeEnd := te
    timelines := (c.timelines.map (fun tl => tl.setStartTimeNum ts)).map
      (fun tl => tl.setEndTimeNum te) }

/-- setTime: reposition the slider handles, then run the change handler. -/
def SliderControl.setTime (c : SliderControl) (ts te : JSNum) : SliderControl :=
  let c1 := { c with sliderSetLog := c.sliderSetLog ++ [(some ts, some te)] }
  c1.sliderChanged ts te

/-- _recalculate: take the minimum start and maximum end over the registered
timelines; for each bound not pinned by an option, store it, push the slider
range bound (0 in place of an infinite sentinel) and, for the start, also
reposition the lower slider handle to the raw minimum. -/
def SliderControl.recalculate (c : SliderControl) : SliderControl :=
  let mn := c.timelines.foldl (fun m tl => if jsLt tl.start m then tl.start else m)
    .posInf
  let mx := c.timelines.foldl (fun m tl => if jsLt m tl.«end» then tl.«end» else m)
    .negInf
  let c1 :=
    if c.opts.start.isSome then c
    else
      { c with
        start := mn
        sliderRangeMin := if mn = .posInf then .num 0 else mn
        sliderSetLog := c.sliderSetLog ++ [(some mn, none)] }
  if c.opts.«end».isSome then c1
  else
    { c1 with
      «end» := mx
      sliderRangeMax := if mx = .negInf then .num 0 else mx }

/-- The consecutive-duplicate-removing reduce of _getTimes: each element is
compared with the previous element of the sorted array and pushed when they
differ. -/
def dedupAdj : Int → List Int → List Int
  | _, [] => []
  | a, b :: rest => if a = b then dedupAdj b rest else b :: dedupAdj b rest

/-- The sorted times list seeded with its first element, then the reduce. -/
def dedupReduce : List Int → List Int
  | [] => []
  | t :: rest => t :: dedupAdj t rest

/-- _getTimes: collect every registered timeline's times restricted to the
closed range from start to end, and when any were found sort them numerically
and drop consecutive duplicates. -/
def SliderControl.getTimes (c : SliderControl) : List Int :=
  let times := c.timelines.foldl
    (fun ts tl =>
      ts ++ tl.times.filter (fun t => jsLe c.start (.num t) && jsLe (.num t) c.«end»))
    []
  if times.isEmpty then times else dedupReduce (sortTimes times)

/-- _rebuildDataList: feed the merged times to the slider as tick values. -/
def SliderControl.rebuildDataList (c : SliderControl) : SliderControl :=
  { c with pips := c.getTimes }

/-- _resetIfTimelinesChanged: when the registered count changed, recalculate
the bounds, rebuild the ticks when shown, and call setTime with the domain
bounds. -/
def SliderControl.resetIfTimelinesChanged (c : SliderControl) (oldCount : Nat) :
    SliderControl :=
  if c.timelines.length = oldCount then c
  else
    let c1 := c.recalculate
    let c2 := if c1.opts.showTicks then c1.rebuildDataList else c1
    c2.setTime c2.start c2.«end»

/-- addTimelines: push each timeline not already registered (identity check),
then reset if the count changed. -/
def SliderControl.addTimelines (c : SliderControl) (ts : List Timeline) :
    SliderControl :=
  let oldCount := c.timelines.length
  let c1 :=
    { c with
      timelines := ts.foldl
        (fun (acc : List Timeline) (tl : Timeline) => if acc.any (fun x => x.id = tl.id) then acc else acc ++ [tl])
        c.timelines }
  c1.resetIfTimelinesChanged oldCount

/-- removeTimelines: splice out the first registered timeline identical to
each argument (no-op for an unregistered one), then reset if the count
changed. -/
def SliderControl.removeTimelines (c : SliderControl) (ts : List Timeline) :
    SliderControl :=
  let oldCount := c.timelines.length
  let c1 :=
    { c with
      timelines := ts.foldl
        (fun (acc : List Timeline) (tl : Timeline) => acc.eraseP (fun x => x.id == tl.id)) c.timelines }
  c1.resetIfTimelinesChanged oldCount

/-- The scan loop of _nearestEventTime, starting at the second element with
the first as the running previous time. -/
def nearLoop (findTime : Int) (mode : Int) : List Int → Bool → Int → Int
  | [], _, lastTime => lastTime
  | t :: rest, retNext, lastTime =>
    if retNext then t
    else if findTime ≤ t then
      if mode = -1 then lastTime
      else if t = findTime then nearLoop findTime mode rest true t
      else t
    else nearLoop findTime mode rest false t

/-- _nearestEventTime on a given times list: the JavaScript function indexes
times[0] of an empty array, yielding undefined, modelled as none. -/
def nearestEventTimeList (times : List Int) (findTime : Int) (mode : Int) :
    Option Int :=
  match times with
  | [] => none
  | t0 :: rest => some (nearLoop findTime mode rest false t0)

/-- _nearestEventTime of the control: runs on the merged _getTimes list. -/
def SliderControl.nearestEventTime (c : SliderControl) (findTime : Int)
    (mode : Int) : Option Int :=
  nearestEventTimeList c.getTimes findTime mode

example : nearestEventTimeList [10, 20, 30] 5 (-1) = some 10 := by decide
example : nearestEventTimeList [10, 20, 30] 30 1 = some 30 := by decide
example : nearestEventTimeList [10, 20, 30] 20 (-1) = some 10 := by decide
example : nearestEventTimeList [10, 20, 30] 5 1 = some 20 := by decide
example : nearestEventTimeList [10, 20, 30] 25 (-1) = some 20 := by decide
example : nearestEventTimeList [10, 20, 30] 10 1 = some 20 := by decide
example : nearestEventTimeList [10, 20, 30] 35 (-1) = some 30 := by decide

/-- The features of the kept layers together with the unmatched candidates are
a permutation of the candidate list: matching consumes one candidate per kept
layer. -/
theorem reconcile_perm (layers : List Layer) :
    ∀ feats : List Nat,
      List.Perm
        ((reconcile layers feats).1.map Layer.feature ++ (reconcile layers feats).2)
        feats := by
  induction layers with
  | nil => intro feats; simp [reconcile]
  | cons l ls ih =>
    intro feats
    by_cases h : l.feature ∈ feats
    · simp only [reconcile, if_pos h, List.map_cons, List.cons_append]
      exact ((ih (feats.erase l.feature)).cons l.feature).trans
        (List.perm_cons_erase h).symm
    · simp only [reconcile, if_neg h]
      exact ih feats

/-- When the displayed features are already a permutation of the candidates,
the matching keeps every layer and consumes every candidate. -/
theorem reconcile_of_perm (layers : List Layer) :
    ∀ feats : List Nat, List.Perm (layers.map Layer.feature) feats →
      reconcile layers feats = (layers, []) := by
  induction layers with
  | nil =>
    intro feats h
    have : feats = [] := (List.Perm.nil_eq h).symm
    simp [reconcile, this]
  | cons l ls ih =>
    intro feats h
    have hmem : l.feature ∈ feats := h.mem_iff.mp (by simp)
    have hperm : List.Perm (ls.map Layer.feature) (feats.erase l.feature) := by
      have h2 : List.Perm (l.feature :: ls.map Layer.feature)
          (l.feature :: feats.erase l.feature) :=
        h.trans (List.perm_cons_erase hmem)
      exact h2.cons_inv
    simp [reconcile, if_pos hmem, ih _ hperm]

/-- C1: after any updateDisplayedLayers call, the set of displayed layers'
features (reference identity) equals exactly the set returned by
overlap(timeStart, timeEnd): no displayed feature outside the overlap result,
and every overlapping feature displayed. -/
theorem updateDisplayedLayers_matches_overlap (tl : Timeline) (f : Nat) :
    (∃ l ∈ tl.updateDisplayedLayers.layers, l.feature = f) ↔
      f ∈ overlap tl.entries tl.timeStart tl.timeEnd := by
  have hperm := reconcile_perm tl.layers (overlap tl.entries tl.timeStart tl.timeEnd)
  constructor
  · rintro ⟨l, hl, rfl⟩
    apply hperm.mem_iff.mp
    simp only [Timeline.updateDisplayedLayers, List.mem_append] at hl
    rcases hl with h1 | h2
    · exact List.mem_append_left _ (List.mem_map_of_mem _ h1)
    · rcases List.mem_map.mp h2 with ⟨g, hg, rfl⟩
      exact List.mem_append_right _ hg
  · intro hf
    have := hperm.mem_iff.mpr hf
    rcases List.mem_append.mp this with h1 | h2
    · rcases List.mem_map.mp h1 with ⟨l, hl, rfl⟩
      exact ⟨l, by simp [Timeline.updateDisplayedLayers, List.mem_append, hl], rfl⟩
    · refine ⟨{ feature := f }, ?_, rfl⟩
      simp only [Timeline.updateDisplayedLayers, List.mem_append]
      exact Or.inr (List.mem_map_of_mem _ h2)

/-- C8: a second updateDisplayedLayers call with no state change in between
performs zero removals (the matching keeps every displayed layer) and zero
additions (no candidate is left over), so the state is unchanged. -/
theorem updateDisplayedLayers_idem (tl : Timeline) :
    reconcile tl.updateDisplayedLayers.layers
        (overlap tl.updateDisplayedLayers.entries
          tl.updateDisplayedLayers.timeStart tl.updateDisplayedLayers.timeEnd) =
      (tl.updateDisplayedLayers.layers, []) ∧
    tl.updateDisplayedLayers.updateDisplayedLayers = tl.updateDisplayedLayers := by
  have hfields : tl.updateDisplayedLayers.entries = tl.entries ∧
      tl.updateDisplayedLayers.timeStart = tl.timeStart ∧
      tl.updateDisplayedLayers.timeEnd = tl.timeEnd := by
    simp [Timeline.updateDisplayedLayers]
  have hmap : tl.updateDisplayedLayers.layers.map Layer.feature =
      (reconcile tl.layers (overlap tl.entries tl.timeStart tl.timeEnd)).1.map
          Layer.feature ++
        (reconcile tl.layers (overlap tl.entries tl.timeStart tl.timeEnd)).2 := by
    simp [Timeline.updateDisplayedLayers, Function.comp_def]
  have hperm : List.Perm (tl.updateDisplayedLayers.layers.map Layer.feature)
      (overlap tl.entries tl.timeStart tl.timeEnd) := by
    rw [hmap]; exact reconcile_perm tl.layers _
  have hrec := reconcile_of_perm tl.updateDisplayedLayers.layers
    (overlap tl.entries tl.timeStart tl.timeEnd) hperm
  have hov : overlap tl.updateDisplayedLayers.entries
      tl.updateDisplayedLayers.timeStart tl.updateDisplayedLayers.timeEnd =
      overlap tl.entries tl.timeStart tl.timeEnd := by
    rw [hfields.1, hfields.2.1, hfields.2.2]
  refine ⟨by rw [hov]; exact hrec, ?_⟩
  show Timeline.updateDisplayedLayers _ = _
  rw [Timeline.updateDisplayedLayers, hov, hrec]
  simp

/-- C9: each setter updates only its own selection bound, leaves the indexed
entries and times untouched, redraws exactly when drawOnSetTime is on, and
fires the change notification in every case; for numeric and for string
arguments alike. -/
theorem set_time_frame (parseDate : String → Int) (t : TimeInput) (tl : Timeline) :
    ((tl.setStartTime parseDate t).timeStart = .num (t.toTime parseDate) ∧
     (tl.setStartTime parseDate t).timeEnd = tl.timeEnd ∧
     (tl.setStartTime parseDate t).entries = tl.entries ∧
     (tl.setStartTime parseDate t).times = tl.times ∧
     (tl.setStartTime parseDate t).layers =
       (if tl.drawOnSetTime then
          Timeline.updateDisplayedLayers
            { tl with timeStart := .num (t.toTime parseDate) }
        else tl).layers ∧
     (tl.setStartTime parseDate t).changeCount = tl.changeCount + 1) ∧
    ((tl.setEndTime parseDate t).timeEnd = .num (t.toTime parseDate) ∧
     (tl.setEndTime parseDate t).timeStart = tl.timeStart ∧
     (tl.setEndTime parseDate t).entries = tl.entries ∧
     (tl.setEndTime parseDate t).times = tl.times ∧
     (tl.setEndTime parseDate t).layers =
       (if tl.drawOnSetTime then
          Timeline.updateDisplayedLayers
            { tl with timeEnd := .num (t.toTime parseDate) }
        else tl).layers ∧
     (tl.setEndTime parseDate t).changeCount = tl.changeCount + 1) := by
  cases h : tl.drawOnSetTime <;>
    simp [Timeline.setStartTime, Timeline.setEndTime, Timeline.setStartTimeNum,
      Timeline.setEndTimeNum, Timeline.updateDisplayedLayers, h]

/-- The comparison on two finite times reduces to the integer order. -/
theorem jsLe_num_num (a b : Int) : jsLe (.num a) (.num b) = true ↔ a ≤ b := by
  simp [jsLe, jsLt]

/-- C2: for an inserted entry (s, e, f) whose feature identifies it uniquely
(the construction inserts each distinct feature object with one interval),
membership of f in the overlap result is exactly the closed-interval test
s <= qe and e >= qs, for every query, an inverted one (qe < qs) included: the
query is total and needs no special case. -/
theorem overlap_mem_iff (entries : List Entry) (s e : Int) (f : Nat)
    (qs qe : Int) (hmem : Entry.mk s e f ∈ entries)
    (huniq : ∀ en ∈ entries, en.feature = f → en = Entry.mk s e f) :
    f ∈ overlap entries (.num qs) (.num qe) ↔ (s ≤ qe ∧ e ≥ qs) := by
  simp only [overlap, List.mem_map, List.mem_filter]
  constructor
  · rintro ⟨en, ⟨hen, hcond⟩, hf⟩
    have heq := huniq en hen hf
    subst heq
    simp only [Bool.and_eq_true] at hcond
    exact ⟨(jsLe_num_num s qe).mp hcond.1, (jsLe_num_num qs e).mp hcond.2⟩
  · rintro ⟨h1, h2⟩
    refine ⟨Entry.mk s e f, ⟨hmem, ?_⟩, rfl⟩
    simp only [Bool.and_eq_true]
    exact ⟨(jsLe_num_num s qe).mpr h1, (jsLe_num_num qs e).mpr h2⟩

/-- Witness for C2: the entry (0, 10, 1) is found by the query (5, 7). -/
theorem overlap_mem_iff_witness :
    Entry.mk 0 10 1 ∈ [Entry.mk 0 10 1] ∧
      1 ∈ overlap [Entry.mk 0 10 1] (.num 5) (.num 7) :=
  ⟨by decide,
    (overlap_mem_iff [Entry.mk 0 10 1] 0 10 1 5 7 (by decide) (by decide)).mpr
      (by omega)⟩

/-- C10: on an empty merged time list, _nearestEventTime reads an element of
an empty array and returns no time, for every argument and direction. -/
theorem nearestEventTime_empty_none (c : SliderControl) (findTime mode : Int)
    (h : c.getTimes = []) : c.nearestEventTime findTime mode = none := by
  unfold SliderControl.nearestEventTime
  rw [h]
  rfl

/-- Witness for C10 at a freshly created control with no registered timelines. -/
theorem nearestEventTime_empty_none_witness :
    (SliderControl.mk0 ⟨true, false, none, none⟩).getTimes = [] ∧
      (SliderControl.mk0 ⟨true, false, none, none⟩).nearestEventTime 5 1 = none :=
  ⟨rfl, nearestEventTime_empty_none _ 5 1 rfl⟩

/-- Folding the de-duplicating step over a sorted tail, starting from an
accumulated run that is strictly increasing and ends in the lower bound of the
tail, yields a strictly increasing list with the union of the elements. -/
theorem foldl_dedupStep (rest : List Int) :
    ∀ (acc : List Int) (m : Int), acc.getLast? = some m →
      List.Chain' (· < ·) acc → (∀ x ∈ rest, m ≤ x) →
      List.Pairwise (· ≤ ·) rest →
      List.Chain' (· < ·) (rest.foldl dedupStep acc) ∧
        ∀ y, y ∈ rest.foldl dedupStep acc ↔ y ∈ acc ∨ y ∈ rest := by
  induction rest with
  | nil =>
    intro acc m _ hch _ _
    exact ⟨hch, fun y => by simp⟩
  | cons x rest ih =>
    intro acc m hlast hch hbound hpw
    have hmx : m ≤ x := hbound x (by simp)
    have hbound2 : ∀ z ∈ rest, x ≤ z := fun z hz => (List.pairwise_cons.mp hpw).1 z hz
    have hpw2 : List.Pairwise (· ≤ ·) rest := (List.pairwise_cons.mp hpw).2
    rw [List.foldl_cons]
    by_cases hx : acc.getLast? = some x
    · rw [dedupStep, if_pos hx]
      have hxm : x = m := by
        rw [hlast] at hx
        exact (Option.some_inj.mp hx).symm
      obtain ⟨hc, hm⟩ := ih acc m hlast hch
        (fun z hz => le_trans (hxm ▸ hmx) (hbound2 z hz)) hpw2
      have hmacc : m ∈ acc := List.mem_of_getLast?_eq_some hlast
      refine ⟨hc, fun y => ?_⟩
      rw [hm y]
      constructor
      · rintro (h | h)
        · exact Or.inl h
        · exact Or.inr (List.mem_cons_of_mem x h)
      · rintro (h | h)
        · exact Or.inl h
        · rcases List.mem_cons.mp h with rfl | h2
          · exact Or.inl (hxm ▸ hmacc)
          · exact Or.inr h2
    · rw [dedupStep, if_neg hx]
      have hne : x ≠ m := fun h => hx (h ▸ hlast)
      have hlt : m < x := lt_of_le_of_ne hmx (fun h => hne h.symm)
      have hchain2 : List.Chain' (· < ·) (acc ++ [x]) := by
        rw [List.chain'_append]
        refine ⟨hch, List.chain'_singleton x, ?_⟩
        intro a ha b hb
        rw [hlast] at ha
        rw [Option.mem_some_iff] at ha
        simp only [List.head?_cons, Option.mem_some_iff] at hb
        omega
      have hlast2 : (acc ++ [x]).getLast? = some x := by
        simp [List.getLast?_concat]
      obtain ⟨hc, hm⟩ := ih (acc ++ [x]) x hlast2 hchain2 hbound2 hpw2
      refine ⟨hc, fun y => ?_⟩
      rw [hm y]
      simp only [List.mem_append, List.mem_singleton, List.mem_cons]
      tauto

/-- The de-duplicating reduce of a sorted list is strictly increasing and
keeps exactly the elements. -/
theorem jsDedup_spec (l : List Int) (h : List.Pairwise (· ≤ ·) l) :
    List.Chain' (· < ·) (jsDedup l) ∧ ∀ y, y ∈ jsDedup l ↔ y ∈ l := by
  cases l with
  | nil => exact ⟨by simp [jsDedup], fun y => by simp [jsDedup]⟩
  | cons t rest =>
    obtain ⟨hc, hm⟩ := foldl_dedupStep rest [t] t (by simp) (by simp)
      (fun x hx => (List.pairwise_cons.mp h).1 x hx) (List.pairwise_cons.mp h).2
    refine ⟨hc, fun y => ?_⟩
    show y ∈ rest.foldl dedupStep [t] ↔ _
    rw [hm y]
    simp [List.mem_cons, Or.comm]

/-- Membership in the raw times list collected by the _process loop: exactly
the endpoints of the successfully extracted intervals, on top of whatever the
accumulator already held. -/
theorem foldl_processStep_times (getI : Nat → Option (Int × Int))
    (fs : List Nat) :
    ∀ (acc : ProcessAcc) (y : Int),
      y ∈ (fs.foldl (processStep getI) acc).times ↔
        y ∈ acc.times ∨ ∃ f ∈ fs, ∃ s e, getI f = some (s, e) ∧ (y = s ∨ y = e) := by
  induction fs with
  | nil => intro acc y; simp
  | cons f fs ih =>
    intro acc y
    rw [List.foldl_cons, ih]
    cases hgi : getI f with
    | none =>
      simp only [processStep, hgi, List.mem_cons]
      constructor
      · rintro (h | h)
        · exact Or.inl h
        · rcases h with ⟨g, hg, hrest⟩
          exact Or.inr ⟨g, Or.inr hg, hrest⟩
      · rintro (h | ⟨g, hg | hg, s, e, hgs, hy⟩)
        · exact Or.inl h
        · rw [hg, hgi] at hgs; cases hgs
        · exact Or.inr ⟨g, hg, s, e, hgs, hy⟩
    | some pr =>
      obtain ⟨s, e⟩ := pr
      simp only [processStep, hgi, List.mem_append, List.mem_cons,
        List.mem_singleton, List.not_mem_nil, or_false]
      constructor
      · rintro ((h | h) | h)
        · exact Or.inl h
        · rcases h with h | h
          · exact Or.inr ⟨f, Or.inl rfl, s, e, hgi, Or.inl h⟩
          · exact Or.inr ⟨f, Or.inl rfl, s, e, hgi, Or.inr h⟩
        · rcases h with ⟨g, hg, hrest⟩
          exact Or.inr ⟨g, Or.inr hg, hrest⟩
      · rintro (h | ⟨g, hg | hg, s2, e2, hgs, hy⟩)
        · exact Or.inl (Or.inl h)
        · rw [hg, hgi] at hgs
          obtain ⟨rfl, rfl⟩ := Prod.mk.injEq .. ▸ Option.some_inj.mp hgs
          exact Or.inl (Or.inr hy)
        · exact Or.inr ⟨g, hg, s2, e2, hgs, hy⟩

/-- C6: the times list of a constructed index is strictly increasing and
holds exactly the distinct start and end values of the successfully extracted
intervals. -/
theorem process_times_strict_sorted (getI : Nat → Option (Int × Int))
    (opts : TimelineOptions) (tid : Nat) (features : List Nat) :
    List.Chain' (· < ·) (Timeline.process getI opts tid features).times ∧
      ∀ y, y ∈ (Timeline.process getI opts tid features).times ↔
        ∃ f ∈ features, ∃ s e, getI f = some (s, e) ∧ (y = s ∨ y = e) := by
  have hmem0 : ∀ y : Int,
      y ∈ (features.foldl (processStep getI)
          { entries := [], times := [], start := .posInf, «end» := .negInf }).times ↔
        ∃ f ∈ features, ∃ s e, getI f = some (s, e) ∧ (y = s ∨ y = e) := by
    intro y
    rw [foldl_processStep_times getI features _ y]
    simp
  show List.Chain' (· < ·)
      (if (features.foldl (processStep getI)
            { entries := [], times := [], start := .posInf, «end» := .negInf }).times = []
        then _ else _) ∧ _
  by_cases hemp : (features.foldl (processStep getI)
      { entries := [], times := [], start := .posInf, «end» := .negInf }).times = []
  · rw [if_pos hemp]
    refine ⟨by rw [hemp]; simp, fun y => ?_⟩
    show y ∈ (if _ then _ else _) ↔ _
    rw [if_pos hemp, hemp, ← hmem0 y, hemp]
  · rw [if_neg hemp]
    have hsorted : List.Pairwise (fun a b : Int => a ≤ b)
        (sortTimes (features.foldl (processStep getI)
          { entries := [], times := [], start := .posInf, «end» := .negInf }).times) :=
      List.sorted_insertionSort _ _
    obtain ⟨hc, hm⟩ := jsDedup_spec _ hsorted
    refine ⟨hc, fun y => ?_⟩
    show y ∈ (if _ then _ else _) ↔ _
    rw [if_neg hemp, hm y, sortTimes, (List.perm_insertionSort _ _).mem_iff,
      ← hmem0 y]

/-- The running minimum of the _process loop is the fold of the extracted
interval starts over the accumulator's minimum. -/
theorem foldl_processStep_start (getI : Nat → Option (Int × Int))
    (fs : List Nat) :
    ∀ acc : ProcessAcc,
      (fs.foldl (processStep getI) acc).start =
        ((fs.filterMap getI).map Prod.fst).foldl
          (fun m s => if jsLt (.num s) m then .num s else m) acc.start := by
  induction fs with
  | nil => intro acc; simp
  | cons f fs ih =>
    intro acc
    rw [List.foldl_cons]
    cases hgi : getI f with
    | none => rw [ih]; simp [processStep, hgi, List.filterMap_cons, hgi]
    | some pr =>
      obtain ⟨s, e⟩ := pr
      rw [ih]
      simp [processStep, hgi, List.filterMap_cons]

/-- The running maximum of the _process loop is the fold of the extracted
interval ends over the accumulator's maximum. -/
theorem foldl_processStep_end (getI : Nat → Option (Int × Int))
    (fs : List Nat) :
    ∀ acc : ProcessAcc,
      (fs.foldl (processStep getI) acc).«end» =
        ((fs.filterMap getI).map Prod.snd).foldl
          (fun m e => if jsLt m (.num e) then .num e else m) acc.«end» := by
  induction fs with
  | nil => intro acc; simp
  | cons f fs ih =>
    intro acc
    rw [List.foldl_cons]
    cases hgi : getI f with
    | none => rw [ih]; simp [processStep, hgi, List.filterMap_cons, hgi]
    | some pr =>
      obtain ⟨s, e⟩ := pr
      rw [ih]
      simp [processStep, hgi, List.filterMap_cons]

/-- Folding the integer minimum step keeps the result at or below the seed and
at or below every element, and the result is the seed or an element. -/
theorem intMinFold (l : List Int) :
    ∀ a : Int,
      (l.foldl (fun m s => min s m) a = a ∨ l.foldl (fun m s => min s m) a ∈ l) ∧
        l.foldl (fun m s => min s m) a ≤ a ∧
        ∀ x ∈ l, l.foldl (fun m s => min s m) a ≤ x := by
  induction l with
  | nil => intro a; simp
  | cons x l ih =>
    intro a
    rw [List.foldl_cons]
    obtain ⟨hor, hle, hall⟩ := ih (min x a)
    refine ⟨?_, le_trans hle (min_le_right x a), ?_⟩
    · rcases hor with h | h
      · rcases le_total x a with hxa | hax
        · exact Or.inr (by rw [h, min_eq_left hxa]; exact List.mem_cons_self x l)
        · exact Or.inl (by rw [h, min_eq_right hax])
      · exact Or.inr (List.mem_cons_of_mem x h)
    · intro z hz
      rcases List.mem_cons.mp hz with rfl | hz2
      · exact le_trans hle (min_le_left z a)
      · exact hall z hz2

/-- Folding the integer maximum step mirrors intMinFold. -/
theorem intMaxFold (l : List Int) :
    ∀ a : Int,
      (l.foldl (fun m e => max e m) a = a ∨ l.foldl (fun m e => max e m) a ∈ l) ∧
        a ≤ l.foldl (fun m e => max e m) a ∧
        ∀ x ∈ l, x ≤ l.foldl (fun m e => max e m) a := by
  induction l with
  | nil => intro a; simp
  | cons x l ih =>
    intro a
    rw [List.foldl_cons]
    obtain ⟨hor, hle, hall⟩ := ih (max x a)
    refine ⟨?_, le_trans (le_max_right x a) hle, ?_⟩
    · rcases hor with h | h
      · rcases le_total x a with hxa | hax
        · exact Or.inl (by rw [h, max_eq_right hxa])
        · exact Or.inr (by rw [h, max_eq_left hax]; exact List.mem_cons_self x l)
      · exact Or.inr (List.mem_cons_of_mem x h)
    · intro z hz
      rcases List.mem_cons.mp hz with rfl | hz2
      · exact le_trans (le_max_left z a) hle
      · exact hall z hz2

/-- Once the minimum fold has reached a finite value it stays finite and
agrees with the integer minimum fold. -/
theorem jsMinFold_num (l : List Int) :
    ∀ a : Int,
      l.foldl (fun m s => if jsLt (.num s) m then .num s else m) (.num a) =
        .num (l.foldl (fun m s => min s m) a) := by
  induction l with
  | nil => intro a; rfl
  | cons x l ih =>
    intro a
    rw [List.foldl_cons, List.foldl_cons]
    have hstep : (if jsLt (.num x) (.num a) then (.num x : JSNum) else .num a) =
        .num (min x a) := by
      by_cases h : x < a
      · simp [jsLt, h, min_eq_left (le_of_lt h)]
      · simp [jsLt, h, min_eq_right (le_of_not_lt h)]
    rw [hstep, ih (min x a)]

/-- Once the maximum fold has reached a finite value it stays finite and
agrees with the integer maximum fold. -/
theorem jsMaxFold_num (l : List Int) :
    ∀ a : Int,
      l.foldl (fun m e => if jsLt m (.num e) then .num e else m) (.num a) =
        .num (l.foldl (fun m e => max e m) a) := by
  induction l with
  | nil => intro a; rfl
  | cons x l ih =>
    intro a
    rw [List.foldl_cons, List.foldl_cons]
    have hstep : (if jsLt (.num a) (.num x) then (.num x : JSNum) else .num a) =
        .num (max x a) := by
      by_cases h : a < x
      · simp [jsLt, h, max_eq_left (le_of_lt h)]
      · simp [jsLt, h, max_eq_right (le_of_not_lt h)]
    rw [hstep, ih (max x a)]

/-- The minimum fold from the positive-infinity seed: the sentinel survives
exactly on the empty list, and otherwise the result is the least element. -/
theorem jsMinFold_posInf (l : List Int) :
    (l = [] →
      l.foldl (fun m s => if jsLt (.num s) m then .num s else m) .posInf = .posInf) ∧
    (l ≠ [] →
      ∃ s0 ∈ l,
        l.foldl (fun m s => if jsLt (.num s) m then .num s else m) .posInf =
            .num s0 ∧
          ∀ x ∈ l, s0 ≤ x) := by
  cases l with
  | nil => exact ⟨fun _ => rfl, fun h => absurd rfl h⟩
  | cons x l =>
    refine ⟨fun h => absurd h (List.cons_ne_nil x l), fun _ => ?_⟩
    rw [List.foldl_cons]
    have hstep : (if jsLt (.num x) .posInf then (.num x : JSNum) else .posInf) =
        .num x := by simp [jsLt]
    rw [hstep, jsMinFold_num l x]
    obtain ⟨hor, hle, hall⟩ := intMinFold l x
    refine ⟨l.foldl (fun m s => min s m) x, ?_, rfl, ?_⟩
    · rcases hor with h | h
      · rw [h]; exact List.mem_cons_self x l
      · exact List.mem_cons_of_mem x h
    · intro z hz
      rcases List.mem_cons.mp hz with rfl | hz2
      · exact hle
      · exact hall z hz2

/-- The maximum fold from the negative-infinity seed, mirrored. -/
theorem jsMaxFold_negInf (l : List Int) :
    (l = [] →
      l.foldl (fun m e => if jsLt m (.num e) then .num e else m) .negInf = .negInf) ∧
    (l ≠ [] →
      ∃ e0 ∈ l,
        l.foldl (fun m e => if jsLt m (.num e) then .num e else m) .negInf =
            .num e0 ∧
          ∀ x ∈ l, x ≤ e0) := by
  cases l with
  | nil => exact ⟨fun _ => rfl, fun h => absurd rfl h⟩
  | cons x l =>
    refine ⟨fun h => absurd h (List.cons_ne_nil x l), fun _ => ?_⟩
    rw [List.foldl_cons]
    have hstep : (if jsLt .negInf (.num x) then (.num x : JSNum) else .negInf) =
        .num x := by simp [jsLt]
    rw [hstep, jsMaxFold_num l x]
    obtain ⟨hor, hle, hall⟩ := intMaxFold l x
    refine ⟨l.foldl (fun m e => max e m) x, ?_, rfl, ?_⟩
    · rcases hor with h | h
      · rw [h]; exact List.mem_cons_self x l
      · exact List.mem_cons_of_mem x h
    · intro z hz
      rcases List.mem_cons.mp hz with rfl | hz2
      · exact hle
      · exact hall z hz2

/-- C4 counterexample: pinning start = 0 and end = 0 in the options is not
used verbatim: with one feature spanning 5 to 10 the constructed bounds are
the computed extremes, because the JavaScript || treats 0 as falsy. -/
theorem process_pinned_zero_cex :
    (Timeline.process (fun _ => some (5, 10)) ⟨true, some 0, some 0⟩ 7 [0]).start =
        .num 5 ∧
      (Timeline.process (fun _ => some (5, 10)) ⟨true, some 0, some 0⟩ 7 [0]).«end» =
        .num 10 ∧
      (JSNum.num 5 ≠ .num 0 ∧ JSNum.num 10 ≠ .num 0) := by
  refine ⟨rfl, rfl, by decide, by decide⟩

/-- C4 amended: a pinned nonzero start or end is used verbatim, but a pinned
0 is falsy under the || fallback and behaves like an unpinned bound; an
unpinned (or 0-pinned) bound is the computed minimum start or maximum end over
the successfully extracted intervals, remaining the infinite sentinel when no
feature was indexed. -/
theorem process_bounds_pinned (getI : Nat → Option (Int × Int))
    (opts : TimelineOptions) (tid : Nat) (features : List Nat) :
    ((∀ v, opts.start = some v → v ≠ 0 →
        (Timeline.process getI opts tid features).start = .num v) ∧
      ((opts.start = none ∨ opts.start = some 0) →
        (features.filterMap getI = [] →
          (Timeline.process getI opts tid features).start = .posInf) ∧
        (features.filterMap getI ≠ [] →
          ∃ s0 ∈ (features.filterMap getI).map Prod.fst,
            (Timeline.process getI opts tid features).start = .num s0 ∧
              ∀ x ∈ (features.filterMap getI).map Prod.fst, s0 ≤ x))) ∧
    ((∀ v, opts.«end» = some v → v ≠ 0 →
        (Timeline.process getI opts tid features).«end» = .num v) ∧
      ((opts.«end» = none ∨ opts.«end» = some 0) →
        (features.filterMap getI = [] →
          (Timeline.process getI opts tid features).«end» = .negInf) ∧
        (features.filterMap getI ≠ [] →
          ∃ e0 ∈ (features.filterMap getI).map Prod.snd,
            (Timeline.process getI opts tid features).«end» = .num e0 ∧
              ∀ x ∈ (features.filterMap getI).map Prod.snd, x ≤ e0))) := by
  have hs : (Timeline.process getI opts tid features).start =
      jsOrOpt opts.start
        ((features.foldl (processStep getI)
          { entries := [], times := [], start := .posInf, «end» := .negInf }).start) :=
    rfl
  have he : (Timeline.process getI opts tid features).«end» =
      jsOrOpt opts.«end»
        ((features.foldl (processStep getI)
          { entries := [], times := [], start := .posInf, «end» := .negInf }).«end») :=
    rfl
  have hsf := foldl_processStep_start getI features
    { entries := [], times := [], start := .posInf, «end» := .negInf }
  have hef := foldl_processStep_end getI features
    { entries := [], times := [], start := .posInf, «end» := .negInf }
  have hfallS : opts.start = none ∨ opts.start = some 0 →
      jsOrOpt opts.start
        ((features.foldl (processStep getI)
          { entries := [], times := [], start := .posInf, «end» := .negInf }).start) =
      ((features.filterMap getI).map Prod.fst).foldl
        (fun m s => if jsLt (.num s) m then .num s else m) .posInf := by
    rintro (h | h) <;> rw [h] <;> simp [jsOrOpt] <;> exact hsf
  have hfallE : opts.«end» = none ∨ opts.«end» = some 0 →
      jsOrOpt opts.«end»
        ((features.foldl (processStep getI)
          { entries := [], times := [], start := .posInf, «end» := .negInf }).«end») =
      ((features.filterMap getI).map Prod.snd).foldl
        (fun m e => if jsLt m (.num e) then .num e else m) .negInf := by
    rintro (h | h) <;> rw [h] <;> simp [jsOrOpt] <;> exact hef
  refine ⟨⟨?_, ?_⟩, ?_, ?_⟩
  · intro v hv hv0
    rw [hs, hv]
    simp [jsOrOpt, hv0]
  · intro hfall
    rw [hs, hfallS hfall]
    constructor
    · intro hnil
      exact (jsMinFold_posInf _).1 (by rw [hnil]; rfl)
    · intro hnil
      exact (jsMinFold_posInf _).2 (by simpa using hnil)
  · intro v hv hv0
    rw [he, hv]
    simp [jsOrOpt, hv0]
  · intro hfall
    rw [he, hfallE hfall]
    constructor
    · intro hnil
      exact (jsMaxFold_negInf _).1 (by rw [hnil]; rfl)
    · intro hnil
      exact (jsMaxFold_negInf _).2 (by simpa using hnil)

/-- Witness for C4 amended: a pinned nonzero start 3 is used verbatim, and an
unpinned end equals the computed maximum 10. -/
theorem process_bounds_pinned_witness :
    (Timeline.process (fun _ => some (5, 10)) ⟨true, some 3, none⟩ 0 [0]).start =
        .num 3 ∧
      ∃ e0 ∈ ([0].filterMap (fun _ => some ((5 : Int), (10 : Int)))).map Prod.snd,
        (Timeline.process (fun _ => some (5, 10)) ⟨true, some 3, none⟩ 0 [0]).«end» =
            .num e0 ∧
          ∀ x ∈ ([0].filterMap (fun _ => some ((5 : Int), (10 : Int)))).map Prod.snd,
            x ≤ e0 :=
  ⟨(process_bounds_pinned (fun _ => some (5, 10)) ⟨true, some 3, none⟩ 0 [0]).1.1 3
      rfl (by decide),
    ((process_bounds_pinned (fun _ => some (5, 10)) ⟨true, some 3, none⟩ 0 [0]).2.2
        (Or.inl rfl)).2 (by decide)⟩

/-- Once the scan has flagged an exact match, the next iteration returns the
upcoming time, or the running previous time when the list is exhausted. -/
theorem nearLoop_retNext (f mode : Int) (rest : List Int) (last : Int) :
    nearLoop f mode rest true last = rest.headD last := by
  cases rest <;> simp [nearLoop]

/-- The backward scan (mode -1) returns the greatest listed time strictly
below the target when one exists, and clamps to the first element otherwise. -/
theorem nearLoop_back (f : Int) :
    ∀ (rest : List Int) (last : Int),
      List.Pairwise (· < ·) (last :: rest) →
      ((∃ x ∈ last :: rest, x < f) →
        nearLoop f (-1) rest false last ∈ last :: rest ∧
          nearLoop f (-1) rest false last < f ∧
          ∀ x ∈ last :: rest, x < f → x ≤ nearLoop f (-1) rest false last) ∧
      ((∀ x ∈ last :: rest, f ≤ x) → nearLoop f (-1) rest false last = last) := by
  intro rest
  induction rest with
  | nil =>
    intro last _
    have hres : nearLoop f (-1) [] false last = last := rfl
    constructor
    · rintro ⟨x, hx, hxf⟩
      rw [List.mem_singleton] at hx
      subst hx
      refine ⟨by rw [hres]; simp, by rw [hres]; exact hxf, ?_⟩
      intro z hz _
      rw [List.mem_singleton] at hz
      subst hz
      rw [hres]
    · intro _
      rfl
  | cons t rest ih =>
    intro last hpw
    have hlastt : last < t := (List.pairwise_cons.mp hpw).1 t (by simp)
    have hpw2 : List.Pairwise (· < ·) (t :: rest) := (List.pairwise_cons.mp hpw).2
    have htle : ∀ x ∈ t :: rest, t ≤ x := by
      intro x hx
      rcases List.mem_cons.mp hx with rfl | hx2
      · exact le_refl x
      · exact le_of_lt ((List.pairwise_cons.mp hpw2).1 x hx2)
    by_cases hft : f ≤ t
    · have hres : nearLoop f (-1) (t :: rest) false last = last := by
        simp [nearLoop, hft]
      constructor
      · rintro ⟨x, hx, hxf⟩
        have hxlast : x = last := by
          rcases List.mem_cons.mp hx with rfl | hx2
          · rfl
          · have := htle x hx2
            omega
        subst hxlast
        refine ⟨by rw [hres]; simp, by rw [hres]; exact hxf, ?_⟩
        intro z hz hzf
        rw [hres]
        rcases List.mem_cons.mp hz with rfl | hz2
        · exact le_refl z
        · have := htle z hz2
          omega
      · intro _
        exact hres
    · push_neg at hft
      have hnle : ¬f ≤ t := by omega
      have hres : nearLoop f (-1) (t :: rest) false last =
          nearLoop f (-1) rest false t := by
        simp [nearLoop, hnle]
      obtain ⟨hex, _⟩ := ih t hpw2
      constructor
      · rintro ⟨x, hx, hxf⟩
        have h3 := hex ⟨t, by simp, hft⟩
        rw [hres]
        refine ⟨List.mem_cons_of_mem last h3.1, h3.2.1, ?_⟩
        intro z hz hzf
        rcases List.mem_cons.mp hz with rfl | hz2
        · have := h3.2.2 t (by simp) hft
          omega
        · exact h3.2.2 z hz2 hzf
      · intro hge
        exact absurd (hge t (by simp)) (by omega)

/-- The forward scan (mode 1) returns the least time strictly above the
target among the elements after the first, and clamps to the last element of
the whole list otherwise; the first element is never a candidate. -/
theorem nearLoop_fwd (f : Int) :
    ∀ (rest : List Int) (last : Int),
      List.Pairwise (· < ·) (last :: rest) →
      ((∃ x ∈ rest, f < x) →
        nearLoop f 1 rest false last ∈ rest ∧ f < nearLoop f 1 rest false last ∧
          ∀ x ∈ rest, f < x → nearLoop f 1 rest false last ≤ x) ∧
      ((∀ x ∈ rest, x ≤ f) → nearLoop f 1 rest false last = rest.getLastD last) := by
  intro rest
  induction rest with
  | nil =>
    intro last _
    constructor
    · rintro ⟨x, hx, _⟩
      cases hx
    · intro _
      rfl
  | cons t rest ih =>
    intro last hpw
    have hpw2 : List.Pairwise (· < ·) (t :: rest) := (List.pairwise_cons.mp hpw).2
    have htlt : ∀ x ∈ rest, t < x := fun x hx => (List.pairwise_cons.mp hpw2).1 x hx
    have hshape : nearLoop f 1 (t :: rest) false last =
        (if f ≤ t then
          if (1 : Int) = -1 then last
          else if t = f then nearLoop f 1 rest true t else t
        else nearLoop f 1 rest false t) := rfl
    by_cases hft : f ≤ t
    · by_cases heq : t = f
      · have hres : nearLoop f 1 (t :: rest) false last = rest.headD t := by
          rw [hshape, if_pos hft, if_neg (by omega : ¬(1 : Int) = -1), if_pos heq,
            nearLoop_retNext]
        constructor
        · rintro ⟨x, hx, hfx⟩
          have hxrest : x ∈ rest := by
            rcases List.mem_cons.mp hx with rfl | hx2
            · omega
            · exact hx2
          cases hrest2 : rest with
          | nil =>
            rw [hrest2] at hxrest
            cases hxrest
          | cons r0 rest2 =>
            rw [hrest2] at hres hpw2 htlt
            have hpw3 : List.Pairwise (· < ·) (r0 :: rest2) :=
              (List.pairwise_cons.mp hpw2).2
            have hr0lt : ∀ z ∈ rest2, r0 < z := fun z hz =>
              (List.pairwise_cons.mp hpw3).1 z hz
            have htr0 : t < r0 := htlt r0 (by simp)
            have hres2 : nearLoop f 1 (t :: r0 :: rest2) false last = r0 := hres
            rw [hres2]
            refine ⟨by simp, by omega, ?_⟩
            intro z hz hfz
            rcases List.mem_cons.mp hz with rfl | hz2
            · omega
            · rcases List.mem_cons.mp hz2 with rfl | hz3
              · exact le_refl z
              · exact le_of_lt (hr0lt z hz3)
        · intro hall
          have hrest : rest = [] := by
            cases hrest2 : rest with
            | nil => rfl
            | cons r0 rest2 =>
              have h1 := hall r0 (by rw [hrest2]; simp)
              have h2 := htlt r0 (by rw [hrest2]; simp)
              omega
          subst hrest
          rw [hres]
          rfl
      · have hftlt : f < t := lt_of_le_of_ne hft (fun h => heq h.symm)
        have hres : nearLoop f 1 (t :: rest) false last = t := by
          rw [hshape, if_pos hft, if_neg (by omega : ¬(1 : Int) = -1), if_neg heq]
        constructor
        · intro _
          refine ⟨by rw [hres]; simp, by rw [hres]; exact hftlt, ?_⟩
          intro z hz hfz
          rw [hres]
          rcases List.mem_cons.mp hz with rfl | hz2
          · exact le_refl z
          · exact le_of_lt (htlt z hz2)
        · intro hall
          exact absurd (hall t (by simp)) (by omega)
    · push_neg at hft
      have hres : nearLoop f 1 (t :: rest) false last =
          nearLoop f 1 rest false t := by
        rw [hshape, if_neg (by omega : ¬f ≤ t)]
      obtain ⟨hex, hclamp⟩ := ih t hpw2
      constructor
      · rintro ⟨x, hx, hfx⟩
        have hxrest : x ∈ rest := by
          rcases List.mem_cons.mp hx with rfl | hx2
          · omega
          · exact hx2
        have h3 := hex ⟨x, hxrest, hfx⟩
        rw [hres]
        refine ⟨List.mem_cons_of_mem t h3.1, h3.2.1, ?_⟩
        intro z hz hfz
        rcases List.mem_cons.mp hz with rfl | hz2
        · omega
        · exact h3.2.2 z hz2 hfz
      · intro hall
        rw [hres, hclamp (fun z hz => hall z (List.mem_cons_of_mem t hz))]
        rw [List.getLastD_cons]

/-- The consecutive-duplicate-removing reduce of _getTimes turns a sorted run
into a strictly increasing one. -/
theorem dedupAdj_chain :
    ∀ (rest : List Int) (a : Int),
      List.Pairwise (· ≤ ·) (a :: rest) →
      List.Chain' (· < ·) (a :: dedupAdj a rest) := by
  intro rest
  induction rest with
  | nil => intro a _; simp [dedupAdj]
  | cons b rest ih =>
    intro a hpw
    have hab : a ≤ b := (List.pairwise_cons.mp hpw).1 b (by simp)
    have hpw2 : List.Pairwise (· ≤ ·) (b :: rest) := (List.pairwise_cons.mp hpw).2
    by_cases h : a = b
    · rw [dedupAdj, if_pos h, h]
      exact ih b hpw2
    · rw [dedupAdj, if_neg h]
      exact List.chain'_cons.mpr ⟨lt_of_le_of_ne hab h, ih b hpw2⟩

/-- The _getTimes post-processing of any collected list is strictly
increasing. -/
theorem dedupReduce_sorted_chain (l : List Int) :
    List.Chain' (· < ·) (dedupReduce (sortTimes l)) := by
  cases hs : sortTimes l with
  | nil => simp [dedupReduce]
  | cons t rest =>
    rw [dedupReduce]
    have hp : List.Pairwise (fun a b : Int => a ≤ b) (t :: rest) := by
      rw [← hs]
      exact List.sorted_insertionSort _ _
    exact dedupAdj_chain rest t hp

/-- The merged time list of the control is always strictly increasing. -/
theorem getTimes_chain (c : SliderControl) : List.Chain' (· < ·) c.getTimes := by
  show List.Chain' (· < ·)
    (if (c.timelines.foldl
          (fun ts tl =>
            ts ++ tl.times.filter fun t => jsLe c.start (.num t) && jsLe (.num t) c.«end»)
          []).isEmpty
      then _ else _)
  split
  · next h =>
    rw [List.isEmpty_iff.mp h]
    simp
  · exact dedupReduce_sorted_chain _

/-- A timeline whose times list is 10, 20, 30, for concrete evaluations. -/
def tlEx : Timeline :=
  { id := 0, entries := [⟨10, 20, 1⟩, ⟨20, 30, 2⟩], times := [10, 20, 30],
    start := .num 10, «end» := .num 30, timeStart := .num 10, timeEnd := .num 30,
    drawOnSetTime := true, layers := [], changeCount := 0 }

/-- A control with bounds 0 to 100 holding tlEx, for concrete evaluations. -/
def ctrlEx : SliderControl :=
  { opts := ⟨true, false, none, none⟩, timelines := [tlEx], start := .num 0,
    «end» := .num 100, timeStart := .num 0, timeEnd := .num 100,
    sliderRangeMin := .num 0, sliderRangeMax := .num 100, sliderSetLog := [],
    pips := [] }

example : ctrlEx.getTimes = [10, 20, 30] := by decide

/-- C3 counterexample: on the merged list 10, 20, 30 the backward direction
at 20 skips the exact match and returns 10, not the at-or-before answer 20;
and the forward direction at 5 returns 20, not the nearest time strictly
after, 10, because the scan never considers the first element. -/
theorem nearestEventTime_cex :
    ctrlEx.getTimes = [10, 20, 30] ∧
      ctrlEx.nearestEventTime 20 (-1) = some 10 ∧
      ctrlEx.nearestEventTime 5 1 = some 20 := by decide

/-- C3 amended: on a non-empty merged time list, direction 1 returns the
least listed time strictly after findTime among the positions after the
first (an exact match anywhere is skipped past), clamping to the last listed
time when no such candidate exists; direction -1 returns the greatest listed
time strictly before findTime (an exact match is skipped back past), clamping
to the first listed time when none exists. -/
theorem nearestEventTime_directional (c : SliderControl) (f : Int)
    (hne : c.getTimes ≠ []) :
    (∃ r, c.nearestEventTime f 1 = some r ∧
      ((∃ x ∈ c.getTimes.tail, f < x) →
        r ∈ c.getTimes.tail ∧ f < r ∧ ∀ x ∈ c.getTimes.tail, f < x → r ≤ x) ∧
      ((∀ x ∈ c.getTimes.tail, x ≤ f) → r = c.getTimes.getLastD 0)) ∧
    (∃ r, c.nearestEventTime f (-1) = some r ∧
      ((∃ x ∈ c.getTimes, x < f) →
        r ∈ c.getTimes ∧ r < f ∧ ∀ x ∈ c.getTimes, x < f → x ≤ r) ∧
      ((∀ x ∈ c.getTimes, f ≤ x) → r = c.getTimes.headD 0)) := by
  have hpw : List.Pairwise (· < ·) c.getTimes :=
    List.chain'_iff_pairwise.mp (getTimes_chain c)
  obtain ⟨t0, rest, hcase⟩ := List.exists_cons_of_ne_nil hne
  rw [hcase] at hpw
  have h1 : c.nearestEventTime f 1 = some (nearLoop f 1 rest false t0) := by
    show nearestEventTimeList c.getTimes f 1 = _
    rw [hcase]
    rfl
  have h2 : c.nearestEventTime f (-1) = some (nearLoop f (-1) rest false t0) := by
    show nearestEventTimeList c.getTimes f (-1) = _
    rw [hcase]
    rfl
  obtain ⟨hfex, hfcl⟩ := nearLoop_fwd f rest t0 hpw
  obtain ⟨hbex, hbcl⟩ := nearLoop_back f rest t0 hpw
  constructor
  · refine ⟨nearLoop f 1 rest false t0, h1, ?_, ?_⟩
    · intro hx
      rw [hcase] at hx ⊢
      exact hfex hx
    · intro hall
      rw [hcase] at hall ⊢
      rw [List.tail_cons] at hall
      rw [List.getLastD_cons]
      exact hfcl hall
  · refine ⟨nearLoop f (-1) rest false t0, h2, ?_, ?_⟩
    · intro hx
      rw [hcase] at hx ⊢
      exact hbex hx
    · intro hall
      rw [hcase] at hall ⊢
      exact hbcl hall

/-- Witness for C3 amended, at the merged list 10, 20, 30 with findTime 25. -/
theorem nearestEventTime_directional_witness :
    ctrlEx.getTimes ≠ [] ∧
      ((∃ r, ctrlEx.nearestEventTime 25 1 = some r ∧
        ((∃ x ∈ ctrlEx.getTimes.tail, 25 < x) →
          r ∈ ctrlEx.getTimes.tail ∧ 25 < r ∧
            ∀ x ∈ ctrlEx.getTimes.tail, 25 < x → r ≤ x) ∧
        ((∀ x ∈ ctrlEx.getTimes.tail, x ≤ 25) → r = ctrlEx.getTimes.getLastD 0)) ∧
      (∃ r, ctrlEx.nearestEventTime 25 (-1) = some r ∧
        ((∃ x ∈ ctrlEx.getTimes, x < 25) →
          r ∈ ctrlEx.getTimes ∧ r < 25 ∧
            ∀ x ∈ ctrlEx.getTimes, x < 25 → x ≤ r) ∧
        ((∀ x ∈ ctrlEx.getTimes, 25 ≤ x) → r = ctrlEx.getTimes.headD 0))) :=
  ⟨by decide, nearestEventTime_directional ctrlEx 25 (by decide)⟩

/-- The comparison is reflexive. -/
theorem jsLe_refl (a : JSNum) : jsLe a a = true := by
  cases a <;> simp [jsLe, jsLt]

/-- A strict comparison gives the non-strict one. -/
theorem jsLe_of_jsLt {a b : JSNum} (h : jsLt a b = true) : jsLe a b = true := by
  cases a <;> cases b <;> simp [jsLe, jsLt] at *
  all_goals omega

/-- The non-strict comparison is transitive. -/
theorem jsLe_trans {a b c : JSNum} (h1 : jsLe a b = true) (h2 : jsLe b c = true) :
    jsLe a c = true := by
  cases a <;> cases b <;> cases c <;> simp [jsLe, jsLt] at *
  all_goals omega

/-- A failed strict comparison gives the reversed non-strict one. -/
theorem jsLe_of_not_jsLt {a b : JSNum} (h : ¬jsLt a b = true) : jsLe b a = true := by
  simp [jsLe]
  exact Bool.not_eq_true _ ▸ (by simpa using h)

/-- The minimum fold of _recalculate: the result is the seed or an element,
and it is at or below the seed and every element. -/
theorem jsnumMinFold (l : List JSNum) :
    ∀ m : JSNum,
      (l.foldl (fun m x => if jsLt x m then x else m) m = m ∨
        l.foldl (fun m x => if jsLt x m then x else m) m ∈ l) ∧
        jsLe (l.foldl (fun m x => if jsLt x m then x else m) m) m = true ∧
        ∀ x ∈ l, jsLe (l.foldl (fun m x => if jsLt x m then x else m) m) x = true := by
  induction l with
  | nil => intro m; exact ⟨Or.inl rfl, jsLe_refl m, by simp⟩
  | cons x l ih =>
    intro m
    rw [List.foldl_cons]
    obtain ⟨hor, hle, hall⟩ := ih (if jsLt x m then x else m)
    have hseedm : jsLe (if jsLt x m then x else m) m = true := by
      by_cases h : jsLt x m = true
      · rw [if_pos h]; exact jsLe_of_jsLt h
      · rw [if_neg h]; exact jsLe_refl m
    have hseedx : jsLe (if jsLt x m then x else m) x = true := by
      by_cases h : jsLt x m = true
      · rw [if_pos h]; exact jsLe_refl x
      · rw [if_neg h]; exact jsLe_of_not_jsLt h
    refine ⟨?_, jsLe_trans hle hseedm, ?_⟩
    · rcases hor with h | h
      · rw [h]
        by_cases hx : jsLt x m = true
        · rw [if_pos hx]; exact Or.inr (by simp)
        · rw [if_neg hx]; exact Or.inl rfl
      · exact Or.inr (List.mem_cons_of_mem x h)
    · intro z hz
      rcases List.mem_cons.mp hz with rfl | hz2
      · exact jsLe_trans hle hseedx
      · exact hall z hz2

/-- The maximum fold of _recalculate, mirrored. -/
theorem jsnumMaxFold (l : List JSNum) :
    ∀ m : JSNum,
      (l.foldl (fun m x => if jsLt m x then x else m) m = m ∨
        l.foldl (fun m x => if jsLt m x then x else m) m ∈ l) ∧
        jsLe m (l.foldl (fun m x => if jsLt m x then x else m) m) = true ∧
        ∀ x ∈ l, jsLe x (l.foldl (fun m x => if jsLt m x then x else m) m) = true := by
  induction l with
  | nil => intro m; exact ⟨Or.inl rfl, jsLe_refl m, by simp⟩
  | cons x l ih =>
    intro m
    rw [List.foldl_cons]
    obtain ⟨hor, hle, hall⟩ := ih (if jsLt m x then x else m)
    have hseedm : jsLe m (if jsLt m x then x else m) = true := by
      by_cases h : jsLt m x = true
      · rw [if_pos h]; exact jsLe_of_jsLt h
      · rw [if_neg h]; exact jsLe_refl m
    have hseedx : jsLe x (if jsLt m x then x else m) = true := by
      by_cases h : jsLt m x = true
      · rw [if_pos h]; exact jsLe_refl x
      · rw [if_neg h]; exact jsLe_of_not_jsLt h
    refine ⟨?_, jsLe_trans hseedm hle, ?_⟩
    · rcases hor with h | h
      · rw [h]
        by_cases hx : jsLt m x = true
        · rw [if_pos hx]; exact Or.inr (by simp)
        · rw [if_neg hx]; exact Or.inl rfl
      · exact Or.inr (List.mem_cons_of_mem x h)
    · intro z hz
      rcases List.mem_cons.mp hz with rfl | hz2
      · exact jsLe_trans hseedx hle
      · exact hall z hz2

/-- Field effects of the numeric start setter: only the selection start and
the displayed layers can change. -/
theorem setStartTimeNum_fields (tl : Timeline) (t : JSNum) :
    (tl.setStartTimeNum t).timeStart = t ∧
      (tl.setStartTimeNum t).timeEnd = tl.timeEnd ∧
      (tl.setStartTimeNum t).start = tl.start ∧
      (tl.setStartTimeNum t).«end» = tl.«end» ∧
      (tl.setStartTimeNum t).id = tl.id := by
  cases h : tl.drawOnSetTime <;>
    simp [Timeline.setStartTimeNum, Timeline.updateDisplayedLayers, h]

/-- Field effects of the numeric end setter. -/
theorem setEndTimeNum_fields (tl : Timeline) (t : JSNum) :
    (tl.setEndTimeNum t).timeEnd = t ∧
      (tl.setEndTimeNum t).timeStart = tl.timeStart ∧
      (tl.setEndTimeNum t).start = tl.start ∧
      (tl.setEndTimeNum t).«end» = tl.«end» ∧
      (tl.setEndTimeNum t).id = tl.id := by
  cases h : tl.drawOnSetTime <;>
    simp [Timeline.setEndTimeNum, Timeline.updateDisplayedLayers, h]

/-- Behaviour of _resetIfTimelinesChanged when the registered count changed:
the domain bounds are recomputed (unless pinned), the selection is reset to
the domain bounds, and the domain selection is pushed to every registered
timeline. -/
theorem reset_spec (c : SliderControl) (oldCount : Nat)
    (h : ¬c.timelines.length = oldCount) :
    (c.resetIfTimelinesChanged oldCount).start =
        (if c.opts.start.isSome then c.start
          else c.timelines.foldl
            (fun m tl => if jsLt tl.start m then tl.start else m) .posInf) ∧
      (c.resetIfTimelinesChanged oldCount).«end» =
        (if c.opts.«end».isSome then c.«end»
          else c.timelines.foldl
            (fun m tl => if jsLt m tl.«end» then tl.«end» else m) .negInf) ∧
      (c.resetIfTimelinesChanged oldCount).timeStart =
        (c.resetIfTimelinesChanged oldCount).start ∧
      (c.resetIfTimelinesChanged oldCount).timeEnd =
        (c.resetIfTimelinesChanged oldCount).«end» ∧
      (c.resetIfTimelinesChanged oldCount).timelines =
        (c.timelines.map
            (fun tl => tl.setStartTimeNum (c.resetIfTimelinesChanged oldCount).start)).map
          (fun tl => tl.setEndTimeNum (c.resetIfTimelinesChanged oldCount).«end») := by
  rw [SliderControl.resetIfTimelinesChanged, if_neg h]
  cases hticks : c.opts.showTicks <;>
    cases hms : c.opts.start.isSome <;>
    cases hme : c.opts.«end».isSome <;>
    simp [SliderControl.recalculate, SliderControl.rebuildDataList,
      SliderControl.setTime, SliderControl.sliderChanged, hms, hme, hticks]

/-- From the positive-infinity seed, the minimum fold lands on an element of
any non-empty list. -/
theorem jsnumMinFold_posInf_mem (l : List JSNum) (hne : l ≠ []) :
    l.foldl (fun m x => if jsLt x m then x else m) .posInf ∈ l := by
  cases l with
  | nil => cases hne rfl
  | cons x l =>
    rw [List.foldl_cons]
    have hseed : (if jsLt x .posInf then x else .posInf) = x := by
      cases x <;> simp [jsLt]
    rw [hseed]
    obtain ⟨hor, _, _⟩ := jsnumMinFold l x
    rcases hor with h | h
    · rw [h]; simp
    · exact List.mem_cons_of_mem x h

/-- From the negative-infinity seed, the maximum fold lands on an element of
any non-empty list. -/
theorem jsnumMaxFold_negInf_mem (l : List JSNum) (hne : l ≠ []) :
    l.foldl (fun m x => if jsLt m x then x else m) .negInf ∈ l := by
  cases l with
  | nil => cases hne rfl
  | cons x l =>
    rw [List.foldl_cons]
    have hseed : (if jsLt .negInf x then x else .negInf) = x := by
      cases x <;> simp [jsLt]
    rw [hseed]
    obtain ⟨hor, _, _⟩ := jsnumMaxFold l x
    rcases hor with h | h
    · rw [h]; simp
    · exact List.mem_cons_of_mem x h

/-- C5 amended: after an addTimelines or removeTimelines call with a net
change in the registered count, the control recomputes each domain bound not
pinned by an option as the corresponding extreme over the registered
timelines, resets the current selection to the full domain [start, end], and
pushes that domain selection (not the previous selection) to every registered
timeline. -/
theorem timelines_change_reset (c : SliderControl) (ts : List Timeline)
    (c2 : SliderControl)
    (hc : c2 = c.addTimelines ts ∨ c2 = c.removeTimelines ts)
    (hchange : c2.timelines.length ≠ c.timelines.length) :
    (c.opts.start.isSome = true → c2.start = c.start) ∧
      (c.opts.start = none →
        (∀ tl2 ∈ c2.timelines, jsLe c2.start tl2.start = true) ∧
          (c2.timelines ≠ [] → ∃ tl2 ∈ c2.timelines, c2.start = tl2.start) ∧
          (c2.timelines = [] → c2.start = .posInf)) ∧
      (c.opts.«end».isSome = true → c2.«end» = c.«end») ∧
      (c.opts.«end» = none →
        (∀ tl2 ∈ c2.timelines, jsLe tl2.«end» c2.«end» = true) ∧
          (c2.timelines ≠ [] → ∃ tl2 ∈ c2.timelines, c2.«end» = tl2.«end») ∧
          (c2.timelines = [] → c2.«end» = .negInf)) ∧
      c2.timeStart = c2.start ∧ c2.timeEnd = c2.«end» ∧
      ∀ tl2 ∈ c2.timelines, tl2.timeStart = c2.start ∧ tl2.timeEnd = c2.«end» := by
  have hshape : ∃ L : List Timeline,
      c2 = SliderControl.resetIfTimelinesChanged { c with timelines := L }
        c.timelines.length := by
    rcases hc with h | h
    · exact ⟨ts.foldl
        (fun (acc : List Timeline) (tl : Timeline) =>
          if acc.any (fun x => x.id = tl.id) then acc else acc ++ [tl])
        c.timelines, h⟩
    · exact ⟨ts.foldl
        (fun (acc : List Timeline) (tl : Timeline) =>
          acc.eraseP (fun x => x.id == tl.id)) c.timelines, h⟩
  obtain ⟨L, hL⟩ := hshape
  by_cases hlen : ({ c with timelines := L } : SliderControl).timelines.length =
      c.timelines.length
  · rw [hL, SliderControl.resetIfTimelinesChanged, if_pos hlen] at hchange
    exact absurd hlen hchange
  · obtain ⟨hs, he, hts, hte, htls⟩ := reset_spec { c with timelines := L }
      c.timelines.length hlen
    rw [← hL] at hs he hts hte htls
    dsimp only at hs he htls
    have htl2 : ∀ tl2 ∈ c2.timelines, ∃ tl0 ∈ L,
        tl2.start = tl0.start ∧ tl2.«end» = tl0.«end» ∧
          tl2.timeStart = c2.start ∧ tl2.timeEnd = c2.«end» := by
      intro tl2 h2
      rw [htls] at h2
      obtain ⟨tl1, h1, rfl⟩ := List.mem_map.mp h2
      obtain ⟨tl0, h0, rfl⟩ := List.mem_map.mp h1
      refine ⟨tl0, h0, ?_, ?_, ?_, ?_⟩
      · rw [(setEndTimeNum_fields _ _).2.2.1, (setStartTimeNum_fields _ _).2.2.1]
      · rw [(setEndTimeNum_fields _ _).2.2.2.1, (setStartTimeNum_fields _ _).2.2.2.1]
      · rw [(setEndTimeNum_fields _ _).2.1, (setStartTimeNum_fields _ _).1]
      · rw [(setEndTimeNum_fields _ _).1]
    have hL2 : ∀ tl0 ∈ L, ∃ tl2 ∈ c2.timelines,
        tl2.start = tl0.start ∧ tl2.«end» = tl0.«end» := by
      intro tl0 h0
      refine ⟨(tl0.setStartTimeNum c2.start).setEndTimeNum c2.«end», ?_, ?_, ?_⟩
      · rw [htls]
        exact List.mem_map_of_mem _ (List.mem_map_of_mem _ h0)
      · rw [(setEndTimeNum_fields _ _).2.2.1, (setStartTimeNum_fields _ _).2.2.1]
      · rw [(setEndTimeNum_fields _ _).2.2.2.1, (setStartTimeNum_fields _ _).2.2.2.1]
    have hnil : c2.timelines = [] ↔ L = [] := by
      rw [htls]
      simp
    have hfoldS : L.foldl (fun m tl => if jsLt tl.start m then tl.start else m)
        .posInf =
        (L.map (fun tl => tl.start)).foldl
          (fun m x => if jsLt x m then x else m) .posInf := by
      rw [List.foldl_map]
    have hfoldE : L.foldl (fun m tl => if jsLt m tl.«end» then tl.«end» else m)
        .negInf =
        (L.map (fun tl => tl.«end»)).foldl
          (fun m x => if jsLt m x then x else m) .negInf := by
      rw [List.foldl_map]
    refine ⟨?_, ?_, ?_, ?_, hts, hte, fun tl2 h2 => ?_⟩
    · intro hpin
      rw [hs, if_pos hpin]
    · intro hnone
      rw [hs, if_neg (by rw [hnone]; simp), hfoldS]
      obtain ⟨_, _, hall⟩ := jsnumMinFold (L.map (fun tl => tl.start)) .posInf
      refine ⟨?_, ?_, ?_⟩
      · intro tl2 h2
        obtain ⟨tl0, h0, hst, _, _, _⟩ := htl2 tl2 h2
        rw [hst]
        exact hall tl0.start (List.mem_map_of_mem _ h0)
      · intro hne
        have hLne : L ≠ [] := fun h => hne (hnil.mpr h)
        have hmem := jsnumMinFold_posInf_mem (L.map (fun tl => tl.start))
          (by simpa using hLne)
        obtain ⟨tl0, h0, hst⟩ := List.mem_map.mp hmem
        obtain ⟨tl2, h2, hst2, _⟩ := hL2 tl0 h0
        exact ⟨tl2, h2, by rw [hst2, ← hst]⟩
      · intro hLnil
        rw [hnil.mp hLnil]
        rfl
    · intro hpin
      rw [he, if_pos hpin]
    · intro hnone
      rw [he, if_neg (by rw [hnone]; simp), hfoldE]
      obtain ⟨_, _, hall⟩ := jsnumMaxFold (L.map (fun tl => tl.«end»)) .negInf
      refine ⟨?_, ?_, ?_⟩
      · intro tl2 h2
        obtain ⟨tl0, h0, _, hen, _, _⟩ := htl2 tl2 h2
        rw [hen]
        exact hall tl0.«end» (List.mem_map_of_mem _ h0)
      · intro hne
        have hLne : L ≠ [] := fun h => hne (hnil.mpr h)
        have hmem := jsnumMaxFold_negInf_mem (L.map (fun tl => tl.«end»))
          (by simpa using hLne)
        obtain ⟨tl0, h0, hen⟩ := List.mem_map.mp hmem
        obtain ⟨tl2, h2, _, hen2⟩ := hL2 tl0 h0
        exact ⟨tl2, h2, by rw [hen2, ← hen]⟩
      · intro hLnil
        rw [hnil.mp hLnil]
        rfl
    · obtain ⟨_, _, _, _, hts2, hte2⟩ := htl2 tl2 h2
      exact ⟨hts2, hte2⟩

/-- First concrete timeline over the interval 0 to 10. -/
def tlA : Timeline :=
  { id := 0, entries := [⟨0, 10, 1⟩], times := [0, 10], start := .num 0,
    «end» := .num 10, timeStart := .num 0, timeEnd := .num 10,
    drawOnSetTime := false, layers := [], changeCount := 0 }

/-- Second concrete timeline over the interval 0 to 10, a distinct object. -/
def tlB : Timeline :=
  { id := 1, entries := [⟨0, 10, 2⟩], times := [0, 10], start := .num 0,
    «end» := .num 10, timeStart := .num 0, timeEnd := .num 10,
    drawOnSetTime := false, layers := [], changeCount := 0 }

/-- A control over tlA whose current selection 5 to 7 is narrower than its
domain 0 to 10. -/
def ctrlSel : SliderControl :=
  { opts := ⟨false, false, none, none⟩, timelines := [tlA], start := .num 0,
    «end» := .num 10, timeStart := .num 5, timeEnd := .num 7,
    sliderRangeMin := .num 0, sliderRangeMax := .num 10, sliderSetLog := [],
    pips := [] }

/-- C5 counterexample: registering a second timeline while the selection is
[5, 7] pushes the full domain [0, 10] to every registered timeline and resets
the control's selection to it, instead of re-pushing the current selection. -/
theorem addTimelines_reset_cex :
    ctrlSel.timeStart = .num 5 ∧ ctrlSel.timeEnd = .num 7 ∧
      (ctrlSel.addTimelines [tlB]).timelines.length = 2 ∧
      (ctrlSel.addTimelines [tlB]).timeStart = .num 0 ∧
      (ctrlSel.addTimelines [tlB]).timeEnd = .num 10 ∧
      (∀ tl ∈ (ctrlSel.addTimelines [tlB]).timelines,
        tl.timeStart = .num 0 ∧ tl.timeEnd = .num 10) ∧
      (JSNum.num 0 ≠ .num 5 ∧ JSNum.num 10 ≠ .num 7) := by decide

/-- Witness for C5 amended, applied to the same concrete registration. -/
theorem timelines_change_reset_witness :
    (ctrlSel.addTimelines [tlB]).timelines.length ≠ ctrlSel.timelines.length ∧
      (ctrlSel.addTimelines [tlB]).timeStart = (ctrlSel.addTimelines [tlB]).start ∧
      ∀ tl2 ∈ (ctrlSel.addTimelines [tlB]).timelines,
        tl2.timeStart = (ctrlSel.addTimelines [tlB]).start ∧
          tl2.timeEnd = (ctrlSel.addTimelines [tlB]).«end» :=
  ⟨by decide,
    (timelines_change_reset ctrlSel [tlB] (ctrlSel.addTimelines [tlB])
        (Or.inl rfl) (by decide)).2.2.2.2.1,
    fun tl2 h2 =>
      (timelines_change_reset ctrlSel [tlB] (ctrlSel.addTimelines [tlB])
          (Or.inl rfl) (by decide)).2.2.2.2.2.2 tl2 h2⟩

/-- A timeline built from an empty feature collection with default options. -/
def tlEmpty : Timeline := Timeline.process (fun _ => none) ⟨true, none, none⟩ 5 []

/-- A fresh default control with the empty-collection timeline registered. -/
def ctrlEmpty : SliderControl :=
  (SliderControl.mk0 ⟨true, false, none, none⟩).addTimelines [tlEmpty]

/-- C7 counterexample: the empty-collection index keeps the infinite
sentinels as its bounds (nothing corrects them to 0), the registering
control's bounds also stay infinite, and the slider's position-set call
receives the raw positive infinity. -/
theorem empty_collection_cex :
    tlEmpty.start = .posInf ∧ tlEmpty.«end» = .negInf ∧
      ctrlEmpty.start = .posInf ∧ ctrlEmpty.«end» = .negInf ∧
      (some JSNum.posInf, (none : Option JSNum)) ∈ ctrlEmpty.sliderSetLog ∧
      JSNum.posInf ≠ .num 0 := by decide

/-- C7 amended: an index built from an empty feature collection keeps the
infinite sentinels as its bounds, has an empty time list, and displays zero
layers for every selection; when it is registered on a fresh unpinned
control, the slider range bounds fall back to 0 in place of the sentinels,
but the control's own bounds keep the sentinels and the raw infinite values
are still passed in the slider position-set calls. -/
theorem empty_collection_sentinels (getI : Nat → Option (Int × Int))
    (b1 b2 b3 : Bool) (tid : Nat) :
    (Timeline.process getI ⟨b1, none, none⟩ tid []).start = .posInf ∧
      (Timeline.process getI ⟨b1, none, none⟩ tid []).«end» = .negInf ∧
      (Timeline.process getI ⟨b1, none, none⟩ tid []).times = [] ∧
      (∀ qs qe : JSNum,
        (Timeline.updateDisplayedLayers
          { Timeline.process getI ⟨b1, none, none⟩ tid [] with
            timeStart := qs
            timeEnd := qe }).layers = []) ∧
      ((SliderControl.mk0 ⟨b2, b3, none, none⟩).addTimelines
          [Timeline.process getI ⟨b1, none, none⟩ tid []]).start = .posInf ∧
      ((SliderControl.mk0 ⟨b2, b3, none, none⟩).addTimelines
          [Timeline.process getI ⟨b1, none, none⟩ tid []]).«end» = .negInf ∧
      ((SliderControl.mk0 ⟨b2, b3, none, none⟩).addTimelines
          [Timeline.process getI ⟨b1, none, none⟩ tid []]).sliderRangeMin =
        .num 0 ∧
      ((SliderControl.mk0 ⟨b2, b3, none, none⟩).addTimelines
          [Timeline.process getI ⟨b1, none, none⟩ tid []]).sliderRangeMax =
        .num 0 ∧
      (some JSNum.posInf, (none : Option JSNum)) ∈
        ((SliderControl.mk0 ⟨b2, b3, none, none⟩).addTimelines
          [Timeline.process getI ⟨b1, none, none⟩ tid []]).sliderSetLog := by
  cases b2 <;>
    exact ⟨rfl, rfl, rfl, fun qs qe => rfl, rfl, rfl, rfl, rfl,
      List.mem_cons_self _ _⟩
